import Mathlib

/-!
Verification of the lol-blender asset codec layer.

This file gives a shallow embedding, over exact rational arithmetic, of the
coordinate-transform, weight-limiting, parsing and validation logic of the
addon's codec operators:

* `src/io/anm_import_direct.py` — root-bone pose decoding and sparse-track
  evaluation (`apply_anm_to_armature_direct`);
* `src/operators/import_sco.py` / `import_scb.py` — static-object readers
  (`read_sco`, `read_scb`, `create_mesh`);
* `src/operators/export_sco.py` / `export_scb.py` — static-object writers
  (`export_sco`, `export_scb`);
* `src/operators/limit_influences.py` — the standalone weight-limiting
  repair operator (`LOLLeagueLimitInfluences_V4.execute`);
* `src/operators/export_skl_skn.py` — export capacity validation
  (`LOLLeagueExportSKN_V2.execute`);
* `src/io/gltf_bridge.py` — external converter invocation outcome handling.

Machine floats in the Python sources are modelled by `ℚ`; all transforms
under study are compositions of negation, permutation, subtraction and
multiplication, which float arithmetic performs exactly on the inputs the
claims mention, so the rational model is faithful for them.
-/

/-- A 3-component vector, the model of `mathutils.Vector` triples. -/
structure Vec3 where
  x : ℚ
  y : ℚ
  z : ℚ
deriving DecidableEq, Repr

/-- A quaternion in (w, x, y, z) component order, the model of
`mathutils.Quaternion`. -/
structure Quat where
  w : ℚ
  x : ℚ
  y : ℚ
  z : ℚ
deriving DecidableEq, Repr

/-! ### Root-bone pose re-encoding (`src/io/anm_import_direct.py`) -/

/-- Decode of a stored root-bone rotation, from
`apply_anm_to_armature_direct` lines 197–201:
`original_w = rotation.y; original_x = -rotation.z; original_y = -rotation.w;
original_z = rotation.x`. -/
def decodeRootRotation (q : Quat) : Quat :=
  { w := q.y, x := -q.z, y := -q.w, z := q.x }

/-- Decode of a stored root-bone translation, from
`apply_anm_to_armature_direct` lines 179–183:
`Vector((translation.x, -translation.z, translation.y))`. -/
def decodeRootTranslation (t : Vec3) : Vec3 :=
  { x := t.x, y := -t.z, z := t.y }

/-- Modelled from the spec: the forward (standard→stored) root-bone rotation
encoding, which lives in the external Maya exporter and is quoted in the
comments of `apply_anm_to_armature_direct` (lines 168–171): negate x and y,
then reorder components as
`Quaternion((rotation.y, rotation.z, rotation.w, rotation.x))`. -/
def encodeRootRotation (q : Quat) : Quat :=
  let r : Quat := { w := q.w, x := -q.x, y := -q.y, z := q.z }
  { w := r.y, x := r.z, y := r.w, z := r.x }

/-- Modelled from the spec: the forward (standard→stored) root-bone
translation encoding `stored = (x, z, -y)`, quoted in the comment of
`apply_anm_to_armature_direct` line 172. -/
def encodeRootTranslation (t : Vec3) : Vec3 :=
  { x := t.x, y := t.z, z := -t.y }

/-- C1: the root-bone pose re-encodings are exact mutual inverses: decoding
an encoded quaternion returns the original, and encoding a decoded one does
too; likewise for the root-bone translation re-encoding. -/
theorem rootPoseReencodings_mutual_inverses :
    ∀ (q : Quat) (t : Vec3),
      decodeRootRotation (encodeRootRotation q) = q ∧
      encodeRootRotation (decodeRootRotation q) = q ∧
      decodeRootTranslation (encodeRootTranslation t) = t ∧
      encodeRootTranslation (decodeRootTranslation t) = t := by
  intro q t
  refine ⟨?_, ?_, ?_, ?_⟩ <;>
    simp [decodeRootRotation, encodeRootRotation,
      decodeRootTranslation, encodeRootTranslation]

/-! ### Static-object text reader (`src/operators/import_sco.py`) -/

/-- Transform of one parsed vertex line in `read_sco` (line 136):
`vertices.append(Vector((-x, -z, y)))`. -/
def scoReadVertex (x y z : ℚ) : Vec3 :=
  { x := -x, y := -z, z := y }

/-- Transform of the parsed `CentralPoint=` triple in `read_sco` (line 173):
`central = Vector((-central.x, -central.z, central.y))`. -/
def scoReadCentral (x y z : ℚ) : Vec3 :=
  { x := -x, y := -z, z := y }

/-- Transform of the parsed `PivotPoint=` triple in `read_sco` (line 177):
`pivot = Vector((-pivot.x, -pivot.z, pivot.y))`. -/
def scoReadPivot (x y z : ℚ) : Vec3 :=
  { x := -x, y := -z, z := y }

/-- Interchange-side vertex built by `create_mesh` in `import_sco.py`
(line 202): `pos = (v - sco_data['central']) * scale_factor`, componentwise
on `mathutils.Vector`. -/
def scoCreateMeshVertex (v central : Vec3) (scale : ℚ) : Vec3 :=
  { x := (v.x - central.x) * scale
    y := (v.y - central.y) * scale
    z := (v.z - central.z) * scale }

/-- C2: reading a static-object text file with central point (10, 20, 30)
and one vertex (1, 2, 3) at scale factor 1/100 yields the interchange-side
vertex exactly (0.09, 0.27, -0.18); and in general the chain maps stored
(x, y, z) to (-x, -z, y), subtracts the transformed central point, and
multiplies by the scale factor. -/
theorem scoRead_example_vertex :
    scoCreateMeshVertex (scoReadVertex 1 2 3) (scoReadCentral 10 20 30)
        (1 / 100) =
      { x := 9 / 100, y := 27 / 100, z := -18 / 100 } ∧
    ∀ (x y z cx cy cz s : ℚ),
      scoCreateMeshVertex (scoReadVertex x y z) (scoReadCentral cx cy cz) s =
        { x := (-x - -cx) * s, y := (-z - -cz) * s, z := (y - cy) * s } := by
  constructor
  · simp only [scoCreateMeshVertex, scoReadVertex, scoReadCentral]
    norm_num
  · intro x y z cx cy cz s
    simp [scoCreateMeshVertex, scoReadVertex, scoReadCentral]

/-! ### Static-object stored⇄interchange transform (`import_scb.py`,
`export_scb.py`, `export_sco.py`) -/

/-- Reader-side stored→interchange transform of `read_scb`
(lines 92 and 104): `Vector((-x, -z, y))`, applied to every vertex and to
the central point. -/
def scbReadTransform (v : Vec3) : Vec3 :=
  { x := -v.x, y := -v.z, z := v.y }

/-- Writer-side interchange→stored transform used by `export_scb`
(line 199) and `export_sco` (line 197) on every vertex:
`Vector((-v.x, v.z, -v.y))`. -/
def scbWriteVertexTransform (v : Vec3) : Vec3 :=
  { x := -v.x, y := v.z, z := -v.y }

/-- Writer-side transform of the central point, `export_scb` line 192 and
`export_sco` line 190:
`Vector((-central_scaled.x, central_scaled.z, -central_scaled.y))`. -/
def scbWriteCentralTransform (v : Vec3) : Vec3 :=
  { x := -v.x, y := v.z, z := -v.y }

/-- Writer-side transform of the pivot bone position, `export_sco`
line 206:
`Vector((-pivot_scaled.x, pivot_scaled.z, -pivot_scaled.y))`. -/
def scoWritePivotTransform (v : Vec3) : Vec3 :=
  { x := -v.x, y := v.z, z := -v.y }

/-- C3: the static-object writer transform is the exact algebraic inverse
of the reader transform — composing them in either order is the identity —
and the very same transform is the one applied at every writer site
(vertices, central point, pivot) and every reader site (vertices, central
point, pivot). -/
theorem scbTransforms_inverse_and_uniform :
    ∀ v : Vec3,
      scbWriteVertexTransform (scbReadTransform v) = v ∧
      scbReadTransform (scbWriteVertexTransform v) = v ∧
      scbWriteCentralTransform v = scbWriteVertexTransform v ∧
      scoWritePivotTransform v = scbWriteVertexTransform v ∧
      scoReadVertex v.x v.y v.z = scbReadTransform v ∧
      scoReadCentral v.x v.y v.z = scbReadTransform v ∧
      scoReadPivot v.x v.y v.z = scbReadTransform v := by
  intro v
  refine ⟨?_, ?_, rfl, rfl, rfl, rfl, rfl⟩ <;>
    simp [scbReadTransform, scbWriteVertexTransform]

/-! ### Export capacity validation (`src/operators/export_skl_skn.py`) -/

/-- The influences of one vertex that count as significant, from
`LOLLeagueExportSKN_V2.execute` line 119:
`sum(1 for g in vertex.groups if g.weight > 0.001)`, and from
`limit_influences.py` line 40: `if group.weight > 0.001`. -/
def significantWeights (ws : List ℚ) : List ℚ :=
  ws.filter (fun w => (1 : ℚ) / 1000 < w)

/-- The validation stage of `LOLLeagueExportSKN_V2.execute`
(lines 104–125): reject more than 256 bones, then more than 65535
vertices, then any vertex with more than 4 significant influences;
`some msg` models the `self.report({'ERROR'}, ...)`/`CANCELLED` path and
`none` models validation passing. A vertex is its list of group
weights. -/
def exportValidation (boneCount : Nat) (verts : List (List ℚ)) :
    Option String :=
  if 256 < boneCount then some "Too many bones"
  else if 65535 < verts.length then some "Too many vertices"
  else if (verts.filter (fun ws => 4 < (significantWeights ws).length)).isEmpty
  then none
  else some "vertices have more than 4 influences"

/-- C6: export validation fails exactly when the bone count exceeds 256,
the vertex count exceeds 65535, or some vertex has more than 4 influences
above weight 0.001; in particular 256 bones are accepted and 257 rejected,
and 65535 vertices are accepted and 65536 rejected. -/
theorem exportValidation_boundaries :
    (∀ (boneCount : Nat) (verts : List (List ℚ)),
      (exportValidation boneCount verts).isSome ↔
        (256 < boneCount ∨ 65535 < verts.length ∨
          ∃ ws ∈ verts, 4 < (significantWeights ws).length)) ∧
    exportValidation 256 [] = none ∧
    (exportValidation 257 []).isSome ∧
    exportValidation 0 (List.replicate 65535 []) = none ∧
    (exportValidation 0 (List.replicate 65536 [])).isSome := by
  have key : ∀ (boneCount : Nat) (verts : List (List ℚ)),
      (exportValidation boneCount verts).isSome ↔
        (256 < boneCount ∨ 65535 < verts.length ∨
          ∃ ws ∈ verts, 4 < (significantWeights ws).length) := by
    intro boneCount verts
    unfold exportValidation
    split_ifs with h1 h2 h3
    · simp [h1]
    · simp [h2]
    · simp only [Option.isSome_none, Bool.false_eq_true, false_iff]
      push_neg
      rw [List.isEmpty_iff, List.filter_eq_nil_iff] at h3
      refine ⟨le_of_not_lt h1, le_of_not_lt h2, fun ws hws => ?_⟩
      have := h3 ws hws
      simpa using this
    · simp only [Option.isSome_some, true_iff]
      refine Or.inr (Or.inr ?_)
      have hne : verts.filter (fun ws => 4 < (significantWeights ws).length) ≠ [] := by
        simpa [List.isEmpty_iff] using h3
      obtain ⟨ws, hws⟩ := List.exists_mem_of_ne_nil _ hne
      have := List.mem_filter.mp hws
      exact ⟨ws, this.1, by simpa using this.2⟩
  refine ⟨key, ?_, ?_, ?_, ?_⟩
  · rw [← Option.not_isSome_iff_eq_none, key]
    push_neg
    exact ⟨by omega, by simp, by simp⟩
  · rw [key]
    exact Or.inl (by norm_num)
  · rw [← Option.not_isSome_iff_eq_none, key]
    push_neg
    refine ⟨by omega, by rw [List.length_replicate], fun ws hws => ?_⟩
    rw [List.eq_of_mem_replicate hws]
    simp [significantWeights]
  · rw [key]
    refine Or.inr (Or.inl ?_)
    rw [List.length_replicate]
    norm_num

/-! ### SCB header validation (`src/operators/import_scb.py`) -/

/-- The ASCII codes of the magic string `r3d2Mesh` expected by
`read_scb` (line 62). -/
def r3d2MeshMagic : List Nat := [114, 51, 100, 50, 77, 101, 115, 104]

/-- Model of `bytes.decode('ascii', errors='ignore')`: bytes that are not
valid ASCII (≥ 128) are dropped. -/
def asciiDecodeIgnore (bs : List Nat) : List Nat :=
  bs.filter (fun b => b < 128)

/-- The version pair read by `read_scb` line 66
(`struct.unpack('<HH', f.read(4))`): bytes 8–11 as two little-endian
uint16. -/
def scbVersionPair (bs : List Nat) : Nat × Nat :=
  (bs.getD 8 0 + 256 * bs.getD 9 0, bs.getD 10 0 + 256 * bs.getD 11 0)

/-- Header stage of `read_scb` (lines 57–68): the first 8 bytes are decoded
as ASCII (ignoring errors) and compared with `r3d2Mesh`; then 4 bytes are
read and unpacked as two little-endian uint16 (`struct.unpack('<HH', ...)`
raises when fewer than 4 bytes remain, modelled by the length guard); the
version pair must be (3, 2) or (2, 1). -/
def readScbHeader (bs : List Nat) : Except String (Nat × Nat) :=
  if asciiDecodeIgnore (bs.take 8) = r3d2MeshMagic then
    if 12 ≤ bs.length then
      if scbVersionPair bs = (3, 2) ∨ scbVersionPair bs = (2, 1) then
        Except.ok (scbVersionPair bs)
      else Except.error "Unsupported SCB version"
    else Except.error "struct.error: version field truncated"
  else Except.error "Invalid SCB file signature"

/-- Whether the header stage accepts the file. -/
def headerAccepted (bs : List Nat) : Bool :=
  match readScbHeader bs with
  | Except.ok _ => true
  | Except.error _ => false

/-- The ASCII-ignore decode of the first 8 bytes matches the magic exactly
when the raw first 8 bytes do: all magic bytes are valid ASCII, and
dropping any byte leaves fewer than 8 characters. -/
theorem asciiMagic_eq_iff (bs : List Nat) :
    asciiDecodeIgnore (bs.take 8) = r3d2MeshMagic ↔
      bs.take 8 = r3d2MeshMagic := by
  constructor
  · intro h
    have hsub : List.Sublist (asciiDecodeIgnore (bs.take 8)) (bs.take 8) :=
      List.filter_sublist _
    have hlen8 : (asciiDecodeIgnore (bs.take 8)).length = 8 := by
      rw [h]; rfl
    have htake : (bs.take 8).length ≤ 8 := by
      simp [List.length_take]
    have hle : (asciiDecodeIgnore (bs.take 8)).length ≤ (bs.take 8).length :=
      hsub.length_le
    have heq : asciiDecodeIgnore (bs.take 8) = bs.take 8 :=
      hsub.eq_of_length (by omega)
    rw [← heq, h]
  · intro h
    rw [h]
    rfl

/-- C8: the header stage of the static-object binary reader accepts a byte
stream exactly when its first 8 bytes are the ASCII magic `r3d2Mesh` and
its version pair (bytes 8–11 as two little-endian uint16, which requires
at least 12 bytes to be present) is 3.2 or 2.1. -/
theorem readScbHeader_accepts_iff :
    ∀ bs : List Nat,
      headerAccepted bs = true ↔
        (bs.take 8 = r3d2MeshMagic ∧ 12 ≤ bs.length ∧
          (scbVersionPair bs = (3, 2) ∨ scbVersionPair bs = (2, 1))) := by
  intro bs
  unfold headerAccepted readScbHeader
  split_ifs with h1 h2 h3 <;>
    simp_all [asciiMagic_eq_iff]

/-! ### External converter invocation (`src/io/gltf_bridge.py`) -/

/-- The timeout passed to every `subprocess.run` call on the lol2gltf
converter (`timeout=60`, `gltf_bridge.py` lines 1126, 1195 and 1277). -/
def lol2gltfTimeoutSeconds : Nat := 60

/-- Outcome of the single blocking `subprocess.run` call: it either raises
`subprocess.TimeoutExpired`, raises `FileNotFoundError`, or completes with
a return code and captured output. -/
inductive RunOutcome where
  | timeoutExpired : RunOutcome
  | fileNotFound : RunOutcome
  | completed : Int → String → String → RunOutcome
deriving DecidableEq

/-- State of the filesystem after the converter ran: maps a path to the
size of the file there, or `none` when no file exists. `os.path.exists`
is `(fs p).isSome`. -/
def FileSizes : Type := String → Option Nat

/-- `convert_skl_skn_to_gltf_with_lol2gltf` (gltf_bridge.py lines
1157–1224): fail when the executable is missing; run with the 60-second
timeout, failing on `TimeoutExpired` or `FileNotFoundError`; fail when the
return code is nonzero; fail when the output glTF file does not exist;
otherwise report success. -/
def convertSklSknToGltf (exeFound : Bool) (outcome : RunOutcome)
    (fs : FileSizes) (gltfPath : String) : Bool × String :=
  if !exeFound then
    (false, "lol2gltf executable not found")
  else
    match outcome with
    | RunOutcome.timeoutExpired =>
        (false, "lol2gltf conversion timed out after 60 seconds")
    | RunOutcome.fileNotFound =>
        (false, "lol2gltf executable not found at path")
    | RunOutcome.completed rc _ _ =>
        if rc ≠ 0 then (false, "lol2gltf failed with return code")
        else if (fs gltfPath).isNone then (false, "glTF file was not created")
        else (true, "")

/-- `convert_gltf_to_skl_skn_with_lol2gltf` (gltf_bridge.py lines
1226–1325): same structure with two expected output files, checked with
`os.path.exists` one after the other. -/
def convertGltfToSklSkn (exeFound : Bool) (outcome : RunOutcome)
    (fs : FileSizes) (sknPath sklPath : String) : Bool × String :=
  if !exeFound then
    (false, "lol2gltf executable not found")
  else
    match outcome with
    | RunOutcome.timeoutExpired =>
        (false, "lol2gltf conversion timed out after 60 seconds")
    | RunOutcome.fileNotFound =>
        (false, "lol2gltf executable not found at path")
    | RunOutcome.completed rc _ _ =>
        if rc ≠ 0 then (false, "lol2gltf failed with return code")
        else if (fs sknPath).isNone then (false, "SKN file was not created")
        else if (fs sklPath).isNone then (false, "SKL file was not created")
        else (true, "")

/-- A filesystem on which every path holds an existing but empty file. -/
def allFilesEmpty : FileSizes := fun _ => some 0

/-- C9 counterexample: with exit code 0 and both expected output files
present but empty (size 0), `convert_gltf_to_skl_skn_with_lol2gltf`
reports success — refuting the claim that the function returns failure
unless every expected output file exists and is non-empty. -/
theorem convertGltfToSklSkn_succeeds_on_empty_outputs :
    (convertGltfToSklSkn true (RunOutcome.completed 0 "" "") allFilesEmpty
        "out.skn" "out.skl").1 = true ∧
      allFilesEmpty "out.skn" = some 0 ∧
      allFilesEmpty "out.skl" = some 0 ∧
      (convertSklSknToGltf true (RunOutcome.completed 0 "" "") allFilesEmpty
        "out.glb").1 = true ∧
      allFilesEmpty "out.glb" = some 0 := by
  refine ⟨rfl, rfl, rfl, rfl, rfl⟩

/-- C9 (amended): every converter invocation is a single blocking call
with a hard 60-second timeout; on timeout the function returns failure
with a diagnostic message; and even on exit code 0 it returns failure
unless every expected output file exists (emptiness is not checked):
success is never reported while an expected output file is absent. -/
theorem convert_timeout_and_output_existence :
    lol2gltfTimeoutSeconds = 60 ∧
    (∀ (exeFound : Bool) (fs : FileSizes) (gltfPath : String),
      convertSklSknToGltf exeFound RunOutcome.timeoutExpired fs gltfPath =
        (false, "lol2gltf conversion timed out after 60 seconds") ∨
        ¬ exeFound = true) ∧
    (∀ (exeFound : Bool) (fs : FileSizes) (sknPath sklPath : String),
      convertGltfToSklSkn exeFound RunOutcome.timeoutExpired fs sknPath
          sklPath =
        (false, "lol2gltf conversion timed out after 60 seconds") ∨
        ¬ exeFound = true) ∧
    (∀ (exeFound : Bool) (outcome : RunOutcome) (fs : FileSizes)
        (gltfPath : String),
      (convertSklSknToGltf exeFound outcome fs gltfPath).1 = true →
        exeFound = true ∧ (∃ out err, outcome = RunOutcome.completed 0 out err) ∧
          (fs gltfPath).isSome) ∧
    (∀ (exeFound : Bool) (outcome : RunOutcome) (fs : FileSizes)
        (sknPath sklPath : String),
      (convertGltfToSklSkn exeFound outcome fs sknPath sklPath).1 = true →
        exeFound = true ∧ (∃ out err, outcome = RunOutcome.completed 0 out err) ∧
          (fs sknPath).isSome ∧ (fs sklPath).isSome) := by
  refine ⟨rfl, ?_, ?_, ?_, ?_⟩
  · intro exeFound fs gltfPath
    cases exeFound
    · exact Or.inr (by simp)
    · exact Or.inl rfl
  · intro exeFound fs sknPath sklPath
    cases exeFound
    · exact Or.inr (by simp)
    · exact Or.inl rfl
  · intro exeFound outcome fs gltfPath h
    cases exeFound with
    | false => simp [convertSklSknToGltf] at h
    | true =>
      cases outcome with
      | timeoutExpired => simp [convertSklSknToGltf] at h
      | fileNotFound => simp [convertSklSknToGltf] at h
      | completed rc out err =>
        simp only [convertSklSknToGltf, Bool.not_true, Bool.false_eq_true,
          if_false] at h
        by_cases hrc : rc ≠ 0
        · simp [hrc] at h
        · push_neg at hrc
          subst hrc
          by_cases hex : (fs gltfPath).isNone
          · simp [hex] at h
          · exact ⟨rfl, ⟨out, err, rfl⟩, by simpa [Option.isNone_iff_eq_none,
              Option.isSome_iff_ne_none] using hex⟩
  · intro exeFound outcome fs sknPath sklPath h
    cases exeFound with
    | false => simp [convertGltfToSklSkn] at h
    | true =>
      cases outcome with
      | timeoutExpired => simp [convertGltfToSklSkn] at h
      | fileNotFound => simp [convertGltfToSklSkn] at h
      | completed rc out err =>
        simp only [convertGltfToSklSkn, Bool.not_true, Bool.false_eq_true,
          if_false] at h
        by_cases hrc : rc ≠ 0
        · simp [hrc] at h
        · push_neg at hrc
          subst hrc
          by_cases hskn : (fs sknPath).isNone
          · simp [hskn] at h
          · by_cases hskl : (fs sklPath).isNone
            · simp [hskn, hskl] at h
            · refine ⟨rfl, ⟨out, err, rfl⟩, ?_, ?_⟩ <;>
                simp_all [Option.isNone_iff_eq_none, Option.isSome_iff_ne_none]

/-- C9 amended-claim witness: the amended theorem applied at a concrete
successful invocation. -/
theorem convert_timeout_and_output_existence_witness :
    true = true ∧
      (∃ out err, RunOutcome.completed 0 "" "" = RunOutcome.completed 0 out err) ∧
      (allFilesEmpty "a.skn").isSome ∧ (allFilesEmpty "a.skl").isSome :=
  convert_timeout_and_output_existence.2.2.2.2 true
    (RunOutcome.completed 0 "" "") allFilesEmpty "a.skn" "a.skl" rfl

/-! ### Weight limiting (`src/operators/limit_influences.py`) -/

/-- Descending-by-weight ordering of membership pairs, after
`vertex_weights.sort(key=lambda x: x[1], reverse=True)` (line 46): `a`
precedes `b` when `b`'s weight is at most `a`'s. Python's sort is stable
and `reverse=True` keeps equal-weight entries in original order, so the
sorted list equals the stable insertion sort under this relation. -/
def wtGE (a b : Nat × ℚ) : Prop := b.2 ≤ a.2

instance : DecidableRel wtGE := fun a b => inferInstanceAs (Decidable (b.2 ≤ a.2))

instance : IsTotal (Nat × ℚ) wtGE := ⟨fun a b => le_total b.2 a.2⟩

instance : IsTrans (Nat × ℚ) wtGE := ⟨fun _ _ _ hab hbc => le_trans hbc hab⟩

/-- The weight threshold `0.001` of `limit_influences.py` line 40 and
`export_skl_skn.py` line 119. -/
def weightThreshold : ℚ := 1 / 1000

/-- The significant influences of one vertex
(`LOLLeagueLimitInfluences_V4.execute` lines 38–41): membership pairs
`(group index, weight)` with weight above 0.001, in original order. -/
def significantInfluences (gs : List (Nat × ℚ)) : List (Nat × ℚ) :=
  gs.filter (fun g => weightThreshold < g.2)

/-- The stable descending sort of the significant influences (line 46). -/
def sortedSignificant (gs : List (Nat × ℚ)) : List (Nat × ℚ) :=
  (significantInfluences gs).insertionSort wtGE

/-- `top_4 = vertex_weights[:4]` (line 49). -/
def top4Of (gs : List (Nat × ℚ)) : List (Nat × ℚ) :=
  (sortedSignificant gs).take 4

/-- `weight_sum = sum(w for _, w in top_4)` (line 52). -/
def top4SumOf (gs : List (Nat × ℚ)) : ℚ :=
  ((top4Of gs).map Prod.snd).sum

/-- `obj.vertex_groups[group_idx].remove([vertex.index])` (line 57),
restricted to one vertex: drop that group's membership entry. -/
def vgRemove (gs : List (Nat × ℚ)) (gi : Nat) : List (Nat × ℚ) :=
  gs.filter (fun e => e.1 ≠ gi)

/-- `obj.vertex_groups[group_idx].add([vertex.index], w, 'REPLACE')`
(line 62), restricted to one vertex: replace the weight when the vertex is
already in the group, else append a membership entry. -/
def vgAddReplace (gs : List (Nat × ℚ)) (gi : Nat) (w : ℚ) : List (Nat × ℚ) :=
  if gs.any (fun e => e.1 = gi) then
    gs.map (fun e => if e.1 = gi then (gi, w) else e)
  else gs ++ [(gi, w)]

/-- The per-vertex body of `LOLLeagueLimitInfluences_V4.execute`
(lines 36–64): collect the significant influences; when there are more
than 4, stable-sort descending, take the top 4, and when their sum exceeds
0.001, remove the vertex from every significant group and re-add the top 4
with weights normalized by the top-4 sum; otherwise leave the vertex
untouched. -/
def perVertexUpdate (gs : List (Nat × ℚ)) : List (Nat × ℚ) :=
  if 4 < (significantInfluences gs).length then
    if weightThreshold < top4SumOf gs then
      (top4Of gs).foldl
        (fun acc e => vgAddReplace acc e.1 (e.2 / top4SumOf gs))
        ((sortedSignificant gs).foldl (fun acc e => vgRemove acc e.1) gs)
    else gs
  else gs

/-- Folding the per-group removals over `L` filters out every membership
whose group appears in `L`. -/
theorem foldl_vgRemove (L : List (Nat × ℚ)) :
    ∀ gs : List (Nat × ℚ),
      L.foldl (fun acc e => vgRemove acc e.1) gs =
        gs.filter (fun e => e.1 ∉ L.map Prod.fst) := by
  induction L with
  | nil =>
    intro gs
    simp
  | cons f L ih =>
    intro gs
    rw [List.foldl_cons, ih, vgRemove, List.filter_filter]
    apply List.filter_congr
    intro e _
    by_cases h : e.1 = f.1 <;> simp [h, Bool.not_or, Bool.and_comm]

/-- Folding the `REPLACE` adds of fresh, distinct groups appends the new
membership entries in order. -/
theorem foldl_vgAddReplace (f : (Nat × ℚ) → ℚ) :
    ∀ (K acc : List (Nat × ℚ)),
      (∀ e ∈ K, ∀ a ∈ acc, a.1 ≠ e.1) → (K.map Prod.fst).Nodup →
      K.foldl (fun acc e => vgAddReplace acc e.1 (f e)) acc =
        acc ++ K.map (fun e => (e.1, f e)) := by
  intro K
  induction K with
  | nil =>
    intro acc _ _
    simp
  | cons e K ih =>
    intro acc hfresh hnd
    have hany : acc.any (fun a => a.1 = e.1) = false := by
      rw [List.any_eq_false]
      intro a ha
      simpa using hfresh e (List.mem_cons_self e K) a ha
    have hstep : vgAddReplace acc e.1 (f e) = acc ++ [(e.1, f e)] := by
      rw [vgAddReplace]
      simp only [hany]
      simp
    rw [List.foldl_cons, hstep,
      ih (acc ++ [(e.1, f e)]) ?_ (List.Nodup.of_cons (by simpa using hnd))]
    · simp
    · intro x hx a ha
      rcases List.mem_append.mp ha with h | h
      · exact hfresh x (List.mem_cons_of_mem _ hx) a h
      · have ha' : a = (e.1, f e) := by simpa using h
        subst ha'
        simp only [ne_eq]
        intro hcontra
        have hfst : (List.map Prod.fst (e :: K)).Nodup := hnd
        rw [List.map_cons, List.nodup_cons] at hfst
        exact hfst.1 (hcontra ▸ List.mem_map_of_mem Prod.fst hx)

/-- Two distinct members of a list occur in one of the two relative
orders. -/
theorem pair_sublist_of_mem {α : Type} :
    ∀ (l : List α) (a b : α), a ∈ l → b ∈ l → a ≠ b →
      List.Sublist [a, b] l ∨ List.Sublist [b, a] l := by
  intro l
  induction l with
  | nil =>
    intro a b ha
    cases ha
  | cons c t ih =>
    intro a b ha hb hne
    rcases List.mem_cons.mp ha with rfl | ha'
    · have hb' : b ∈ t := by
        rcases List.mem_cons.mp hb with rfl | h
        · exact absurd rfl hne
        · exact h
      exact Or.inl (List.Sublist.cons₂ a (List.singleton_sublist.mpr hb'))
    · rcases List.mem_cons.mp hb with rfl | hb'
      · exact Or.inr (List.Sublist.cons₂ b (List.singleton_sublist.mpr ha'))
      · rcases ih a b ha' hb' hne with h | h
        · exact Or.inl (h.cons c)
        · exact Or.inr (h.cons c)

/-- In a duplicate-free list, an element of the dropped tail cannot occur
before an element of the taken prefix. -/
theorem not_pair_sublist_drop_take {α : Type} {l : List α} {n : Nat}
    (hnd : l.Nodup) {a b : α} (ha : a ∈ l.take n) (hb : b ∈ l.drop n) :
    ¬ List.Sublist [b, a] l := by
  intro hsub
  have hl : l = l.take n ++ l.drop n := (List.take_append_drop n l).symm
  rw [hl] at hsub hnd
  rw [List.sublist_append_iff] at hsub
  obtain ⟨l₁, l₂, heq, h₁, h₂⟩ := hsub
  rw [List.nodup_append] at hnd
  rcases l₁ with _ | ⟨x, _ | ⟨y, rest⟩⟩
  · have hl₂ : l₂ = [b, a] := by simpa using heq.symm
    subst hl₂
    have : a ∈ l.drop n := h₂.subset (by simp)
    exact hnd.2.2 ha this
  · have hx : x = b ∧ l₂ = [a] := by simpa using heq.symm
    have : a ∈ l.drop n := (hx.2 ▸ h₂).subset (by simp)
    exact hnd.2.2 ha this
  · have hlen := congrArg List.length heq
    simp only [List.length_cons, List.length_append, List.length_nil] at hlen
    have hrest : rest = [] := List.eq_nil_of_length_eq_zero (by omega)
    have hl2 : l₂ = [] := List.eq_nil_of_length_eq_zero (by omega)
    subst hrest
    subst hl2
    have hbx : b = x ∧ a = y := by simpa using heq
    have hbtake : b ∈ l.take n := h₁.subset (by simp [hbx.1])
    exact hnd.2.2 hbtake hb

/-- When a vertex has more than 4 significant influences, the top-4 sum
exceeds the 0.001 threshold (each summand does). -/
theorem top4Sum_pos (gs : List (Nat × ℚ))
    (h4 : 4 < (significantInfluences gs).length) :
    weightThreshold < top4SumOf gs := by
  have hthr : (0 : ℚ) < weightThreshold := by rw [weightThreshold]; norm_num
  have hperm := List.perm_insertionSort wtGE (significantInfluences gs)
  have hmemsig : ∀ e ∈ top4Of gs, e ∈ significantInfluences gs := by
    intro e he
    exact hperm.mem_iff.mp ((List.take_sublist 4 _).subset he)
  have hbig : ∀ e ∈ top4Of gs, weightThreshold < e.2 := by
    intro e he
    have := hmemsig e he
    rw [significantInfluences, List.mem_filter] at this
    simpa using this.2
  have hlen : (top4Of gs).length = 4 := by
    rw [top4Of, List.length_take, sortedSignificant, List.length_insertionSort]
    omega
  rw [top4SumOf]
  cases htop : top4Of gs with
  | nil => rw [htop] at hlen; simp at hlen
  | cons e rest =>
    rw [List.map_cons, List.sum_cons]
    have he2 : weightThreshold < e.2 := hbig e (htop ▸ List.mem_cons_self e rest)
    have hrest : 0 ≤ (rest.map Prod.snd).sum := by
      apply List.sum_nonneg
      intro x hx
      obtain ⟨b, hb, rfl⟩ := List.mem_map.mp hx
      have : weightThreshold < b.2 :=
        hbig b (htop ▸ List.mem_cons_of_mem e hb)
      linarith
    linarith

/-- Summing the normalized weights equals the weight sum divided by the
normalizer. -/
theorem sum_map_div :
    ∀ (K : List (Nat × ℚ)) (S : ℚ),
      (K.map (fun e => e.2 / S)).sum = (K.map Prod.snd).sum / S := by
  intro K S
  induction K with
  | nil => simp
  | cons e K ih => simp [ih, add_div]

/-- Structure of the modified membership list: the per-vertex update of a
vertex with more than 4 significant influences keeps the insignificant
entries and appends the normalized top 4. -/
theorem perVertexUpdate_eq (gs : List (Nat × ℚ))
    (hnd : (gs.map Prod.fst).Nodup)
    (h4 : 4 < (significantInfluences gs).length) :
    perVertexUpdate gs =
      gs.filter (fun e => ¬ (weightThreshold < e.2)) ++
        (top4Of gs).map (fun e => (e.1, e.2 / top4SumOf gs)) := by
  have hinj := List.inj_on_of_nodup_map hnd
  have hperm := List.perm_insertionSort wtGE (significantInfluences gs)
  have hsig_sub : ∀ e ∈ significantInfluences gs, e ∈ gs := by
    intro e he
    exact (List.filter_sublist gs).subset he
  have hmemsig : ∀ e ∈ top4Of gs, e ∈ significantInfluences gs := by
    intro e he
    exact hperm.mem_iff.mp ((List.take_sublist 4 _).subset he)
  -- the removal pass keeps exactly the insignificant memberships
  have hrem : (sortedSignificant gs).foldl (fun acc e => vgRemove acc e.1) gs =
      gs.filter (fun e => ¬ (weightThreshold < e.2)) := by
    rw [foldl_vgRemove]
    apply List.filter_congr
    intro e he
    have hiff : (e.1 ∈ (sortedSignificant gs).map Prod.fst) ↔
        (weightThreshold < e.2) := by
      constructor
      · intro hmem
        obtain ⟨a, hamem, hafst⟩ := List.mem_map.mp hmem
        have hasig : a ∈ significantInfluences gs := hperm.mem_iff.mp hamem
        have heq : a = e := hinj (hsig_sub a hasig) he hafst
        subst heq
        rw [significantInfluences, List.mem_filter] at hasig
        simpa using hasig.2
      · intro hw
        have : e ∈ significantInfluences gs := by
          rw [significantInfluences, List.mem_filter]
          exact ⟨he, by simpa using hw⟩
        exact List.mem_map_of_mem Prod.fst (hperm.mem_iff.mpr this)
    by_cases hw : weightThreshold < e.2
    · simp [hw, hiff.mpr hw]
    · have hnm : e.1 ∉ (sortedSignificant gs).map Prod.fst :=
        fun hc => hw (hiff.mp hc)
      simp [hw, hnm]
  -- added groups are fresh in the removal result and mutually distinct
  have hfresh : ∀ e ∈ top4Of gs,
      ∀ a ∈ gs.filter (fun e => ¬ (weightThreshold < e.2)), a.1 ≠ e.1 := by
    intro e he a ha hcontra
    rw [List.mem_filter] at ha
    have hesig := hmemsig e he
    have heq : a = e := hinj ha.1 (hsig_sub e hesig) hcontra
    subst heq
    rw [significantInfluences, List.mem_filter] at hesig
    have h1 : weightThreshold < a.2 := by simpa using hesig.2
    have h2 : ¬ (weightThreshold < a.2) := by simpa using ha.2
    exact h2 h1
  have hndtop : ((top4Of gs).map Prod.fst).Nodup := by
    have hsig_nd : ((significantInfluences gs).map Prod.fst).Nodup :=
      ((List.filter_sublist gs).map Prod.fst).nodup hnd
    have hsorted_nd : ((sortedSignificant gs).map Prod.fst).Nodup :=
      ((hperm.map Prod.fst).nodup_iff).mpr hsig_nd
    exact ((List.take_sublist 4 _).map Prod.fst).nodup hsorted_nd
  rw [perVertexUpdate, if_pos h4, if_pos (top4Sum_pos gs h4), hrem,
    foldl_vgAddReplace (fun e => e.2 / top4SumOf gs) (top4Of gs) _
      (fun e he a ha => hfresh e he a ha) hndtop]

/-- The six-influence vertex of the spec scenario: weights
[0.3, 0.25, 0.2, 0.15, 0.05, 0.05] on groups 0–5. -/
def exampleSixInfluences : List (Nat × ℚ) :=
  [(0, 3 / 10), (1, 1 / 4), (2, 1 / 5), (3, 3 / 20), (4, 1 / 20), (5, 1 / 20)]

/-- The expected repaired vertex: the top 4 weights renormalized by their
sum 0.9. -/
def exampleLimited : List (Nat × ℚ) :=
  [(0, 1 / 3), (1, 5 / 18), (2, 2 / 9), (3, 1 / 6)]

/-- Every weight of the example vertex is significant. -/
theorem exampleSig :
    significantInfluences exampleSixInfluences = exampleSixInfluences := by
  norm_num [significantInfluences, weightThreshold, exampleSixInfluences,
    List.filter_cons]

/-- The example vertex is already in descending weight order (the two tied
0.05 entries stay in original order). -/
theorem exampleSorted :
    sortedSignificant exampleSixInfluences = exampleSixInfluences := by
  rw [sortedSignificant, exampleSig]
  norm_num [exampleSixInfluences, List.insertionSort, List.orderedInsert, wtGE]

/-- The top 4 of the example vertex. -/
theorem exampleTop4 :
    top4Of exampleSixInfluences =
      [(0, 3 / 10), (1, 1 / 4), (2, 1 / 5), (3, 3 / 20)] := by
  rw [top4Of, exampleSorted]
  rfl

/-- The top-4 weight sum of the example vertex. -/
theorem exampleTop4Sum : top4SumOf exampleSixInfluences = 9 / 10 := by
  rw [top4SumOf, exampleTop4]
  norm_num

/-- The repaired example vertex. -/
theorem examplePerVertex :
    perVertexUpdate exampleSixInfluences = exampleLimited := by
  have hnodup : (exampleSixInfluences.map Prod.fst).Nodup := by decide
  have h4 : 4 < (significantInfluences exampleSixInfluences).length := by
    rw [exampleSig]
    norm_num [exampleSixInfluences]
  rw [perVertexUpdate_eq _ hnodup h4, exampleTop4, exampleTop4Sum]
  norm_num [weightThreshold, exampleSixInfluences, exampleLimited,
    List.filter_cons, Prod.ext_iff]

/-- C4: the standalone weight-limiting repair keeps, for every vertex with
more than 4 significant influences, exactly the 4 heaviest significant
influences — every dropped significant influence weighs no more than every
kept one, and a dropped influence tied with a kept one occurs after it in
the original order — re-added with weights normalized to sum exactly 1,
while entries at or below the 0.001 threshold pass through; in particular
the vertex with weights [0.3, 0.25, 0.2, 0.15, 0.05, 0.05] ends with
exactly 4 entries summing to 1 with both 0.05 entries dropped. -/
theorem limitInfluences_keeps_top4 :
    (∀ gs : List (Nat × ℚ), (gs.map Prod.fst).Nodup →
        4 < (significantInfluences gs).length →
      ∃ keep : List (Nat × ℚ),
        keep.length = 4 ∧
        (∀ a ∈ keep, a ∈ significantInfluences gs) ∧
        (∀ b ∈ significantInfluences gs, b ∉ keep → ∀ a ∈ keep, b.2 ≤ a.2) ∧
        (∀ b ∈ significantInfluences gs, b ∉ keep → ∀ a ∈ keep, a.2 = b.2 →
          List.Sublist [a, b] (significantInfluences gs)) ∧
        perVertexUpdate gs =
          gs.filter (fun e => ¬ (weightThreshold < e.2)) ++
            keep.map (fun e => (e.1, e.2 / (keep.map Prod.snd).sum)) ∧
        (keep.map (fun e => e.2 / (keep.map Prod.snd).sum)).sum = 1) ∧
    perVertexUpdate exampleSixInfluences = exampleLimited ∧
    exampleLimited.length = 4 ∧
    (exampleLimited.map Prod.snd).sum = 1 ∧
    (∀ e ∈ exampleLimited, e.1 ≠ 4 ∧ e.1 ≠ 5) := by
  refine ⟨?_, examplePerVertex, rfl, by norm_num [exampleLimited], by decide⟩
  intro gs hnd h4
  have hperm := List.perm_insertionSort wtGE (significantInfluences gs)
  have hsorted : List.Sorted wtGE (sortedSignificant gs) :=
    List.sorted_insertionSort wtGE (significantInfluences gs)
  have hsplit : sortedSignificant gs =
      top4Of gs ++ (sortedSignificant gs).drop 4 :=
    (List.take_append_drop 4 (sortedSignificant gs)).symm
  have hmemsig : ∀ e ∈ top4Of gs, e ∈ significantInfluences gs := by
    intro e he
    exact hperm.mem_iff.mp ((List.take_sublist 4 _).subset he)
  have hsig_nd : (significantInfluences gs).Nodup :=
    (List.Nodup.of_map Prod.fst hnd).filter _
  have hsorted_nd : (sortedSignificant gs).Nodup :=
    hperm.nodup_iff.mpr hsig_nd
  have hdropmem : ∀ b ∈ significantInfluences gs, b ∉ top4Of gs →
      b ∈ (sortedSignificant gs).drop 4 := by
    intro b hbsig hbnk
    have hbs : b ∈ sortedSignificant gs := hperm.mem_iff.mpr hbsig
    rw [hsplit] at hbs
    exact (List.mem_append.mp hbs).resolve_left hbnk
  refine ⟨top4Of gs, ?_, hmemsig, ?_, ?_, ?_, ?_⟩
  · rw [top4Of, List.length_take, sortedSignificant, List.length_insertionSort]
    omega
  · intro b hbsig hbnk a hak
    have hb4 := hdropmem b hbsig hbnk
    have hpw := hsorted
    rw [List.Sorted, hsplit, List.pairwise_append] at hpw
    exact hpw.2.2 a hak b hb4
  · intro b hbsig hbnk a hak haeq
    have hane : a ≠ b := fun h => hbnk (h ▸ hak)
    rcases pair_sublist_of_mem (significantInfluences gs) a b
        (hmemsig a hak) hbsig hane with h | h
    · exact h
    · exfalso
      have hba : List.Sublist [b, a] (sortedSignificant gs) :=
        List.pair_sublist_insertionSort (le_of_eq haeq) h
      have hak' : a ∈ (sortedSignificant gs).take 4 := hak
      exact not_pair_sublist_drop_take hsorted_nd hak'
        (hdropmem b hbsig hbnk) hba
  · exact perVertexUpdate_eq gs hnd h4
  · rw [sum_map_div]
    have hpos := top4Sum_pos gs h4
    have hthr : (0 : ℚ) < weightThreshold := by
      rw [weightThreshold]; norm_num
    exact div_self (ne_of_gt (lt_trans hthr hpos))

/-- C4 witness: the general statement applied to the concrete six-weight
vertex of the scenario. -/
theorem limitInfluences_keeps_top4_witness :
    ∃ keep : List (Nat × ℚ),
      keep.length = 4 ∧
      (∀ a ∈ keep, a ∈ significantInfluences exampleSixInfluences) ∧
      (∀ b ∈ significantInfluences exampleSixInfluences, b ∉ keep →
        ∀ a ∈ keep, b.2 ≤ a.2) ∧
      (∀ b ∈ significantInfluences exampleSixInfluences, b ∉ keep →
        ∀ a ∈ keep, a.2 = b.2 →
          List.Sublist [a, b] (significantInfluences exampleSixInfluences)) ∧
      perVertexUpdate exampleSixInfluences =
        exampleSixInfluences.filter (fun e => ¬ (weightThreshold < e.2)) ++
          keep.map (fun e => (e.1, e.2 / (keep.map Prod.snd).sum)) ∧
      (keep.map (fun e => e.2 / (keep.map Prod.snd).sum)).sum = 1 :=
  limitInfluences_keeps_top4.1 exampleSixInfluences (by decide)
    (by rw [exampleSig]; norm_num [exampleSixInfluences])

/-! ### Degenerate-face filtering (`import_scb.py`, `import_sco.py`) -/

/-- Little-endian uint32 decode of four bytes, one component of
`struct.unpack('<III', f.read(12))` in `read_scb` line 113. -/
def leU32 (b0 b1 b2 b3 : Nat) : Nat :=
  b0 + 256 * b1 + 65536 * b2 + 16777216 * b3

/-- Little-endian uint32 encode (base-256 digits). -/
def encodeU32 (n : Nat) : List Nat :=
  [n % 256, n / 256 % 256, n / 65536 % 256, n / 16777216 % 256]

/-- Decode inverts encode below 2^32. -/
theorem leU32_encode (n : Nat) (h : n < 4294967296) :
    leU32 (n % 256) (n / 256 % 256) (n / 65536 % 256) (n / 16777216 % 256) =
      n := by
  rw [leU32]
  omega

/-- One face record of the static-object binary format: three uint32
indices, a 64-byte padded material name, a 24-byte block of six float32
UV values (the byte content of the last two is consumed uninterpreted
here; the claim concerns only indices and stream position). -/
structure ScbFace where
  i0 : Nat
  i1 : Nat
  i2 : Nat
  material : List Nat
  uv : List Nat

/-- Well-formed face record: indices fit in uint32 and the fixed-size
blocks have their exact sizes. -/
def ScbFace.wf (f : ScbFace) : Prop :=
  f.i0 < 4294967296 ∧ f.i1 < 4294967296 ∧ f.i2 < 4294967296 ∧
    f.material.length = 64 ∧ f.uv.length = 24

/-- The degeneracy test of `read_scb` line 116 and `read_sco` line 155:
any two of the three indices equal. -/
def ScbFace.degenerate (f : ScbFace) : Prop :=
  f.i0 = f.i1 ∨ f.i1 = f.i2 ∨ f.i2 = f.i0

instance (f : ScbFace) : Decidable f.degenerate := by
  unfold ScbFace.degenerate
  infer_instance

/-- The byte serialization of one face record (100 bytes when
well-formed). -/
def encodeScbFace (f : ScbFace) : List Nat :=
  encodeU32 f.i0 ++ encodeU32 f.i1 ++ encodeU32 f.i2 ++ f.material ++ f.uv

/-- The byte serialization of the face section. -/
def encodeScbFaces (fs : List ScbFace) : List Nat :=
  (fs.map encodeScbFace).flatten

/-- One iteration of the face loop of `read_scb` (lines 111–133): read 12
bytes of indices; when degenerate, seek past the 64-byte material name and
the 24-byte UV block emitting nothing; otherwise consume the same 88 bytes
(`struct.unpack('<6f', f.read(24))` raises when the stream is short) and
emit the three indices. Returns the emitted indices and the remaining
stream. -/
def readFaceScb (bs : List Nat) : Option (List Nat × List Nat) :=
  match bs with
  | b0 :: b1 :: b2 :: b3 :: b4 :: b5 :: b6 :: b7 :: b8 :: b9 :: b10 :: b11 ::
      rest =>
    let i0 := leU32 b0 b1 b2 b3
    let i1 := leU32 b4 b5 b6 b7
    let i2 := leU32 b8 b9 b10 b11
    if i0 = i1 ∨ i1 = i2 ∨ i2 = i0 then some ([], rest.drop 88)
    else if 88 ≤ rest.length then some ([i0, i1, i2], rest.drop 88)
    else none
  | _ => none

/-- The face loop `for i in range(face_count)` of `read_scb`. -/
def readFacesScb : Nat → List Nat → Option (List Nat × List Nat)
  | 0, bs => some ([], bs)
  | n + 1, bs =>
    match readFaceScb bs with
    | none => none
    | some (ixs, rest) =>
      match readFacesScb n rest with
      | none => none
      | some (ixs2, rest2) => some (ixs ++ ixs2, rest2)

/-- The index list the reader emits: three indices for every
non-degenerate face, nothing for a degenerate one. -/
def scbIndicesOf (fs : List ScbFace) : List Nat :=
  fs.foldr
    (fun f acc => if f.degenerate then acc else f.i0 :: f.i1 :: f.i2 :: acc) []

/-- Reading one encoded face consumes exactly its 100-byte record and
emits its indices exactly when it is not degenerate. -/
theorem readFaceScb_encode (f : ScbFace) (rest : List Nat) (hwf : f.wf) :
    readFaceScb (encodeScbFace f ++ rest) =
      some (if f.degenerate then [] else [f.i0, f.i1, f.i2], rest) := by
  obtain ⟨h0, h1, h2, hm, hu⟩ := hwf
  have hdrop : (f.material ++ (f.uv ++ rest)).drop 88 = rest := by
    rw [← List.append_assoc]
    exact List.drop_left' (by rw [List.length_append, hm, hu])
  have hlen : 88 ≤ (f.material ++ (f.uv ++ rest)).length := by
    rw [List.length_append, List.length_append, hm, hu]
    omega
  simp only [encodeScbFace, encodeU32, List.append_assoc, List.cons_append,
    List.nil_append, readFaceScb]
  rw [leU32_encode f.i0 h0, leU32_encode f.i1 h1, leU32_encode f.i2 h2]
  by_cases hdeg : f.degenerate
  · rw [if_pos (by exact hdeg), if_pos hdeg, hdrop]
  · rw [if_neg (by exact hdeg), if_pos hlen, if_neg hdeg, hdrop]

/-- Reading a whole encoded face section consumes every record fully
(leaving exactly the bytes that follow it) and emits the indices of the
non-degenerate faces in order. -/
theorem readFacesScb_encode (fs : List ScbFace) (rest : List Nat)
    (hwf : ∀ f ∈ fs, f.wf) :
    readFacesScb fs.length (encodeScbFaces fs ++ rest) =
      some (scbIndicesOf fs, rest) := by
  induction fs with
  | nil => simp [readFacesScb, encodeScbFaces, scbIndicesOf]
  | cons f fs ih =>
    have hsplit : encodeScbFaces (f :: fs) ++ rest =
        encodeScbFace f ++ (encodeScbFaces fs ++ rest) := by
      simp [encodeScbFaces, List.append_assoc]
    rw [List.length_cons, hsplit]
    simp only [readFacesScb,
      readFaceScb_encode f _ (hwf f (List.mem_cons_self f fs)),
      ih (fun g hg => hwf g (List.mem_cons_of_mem f hg))]
    by_cases hdeg : f.degenerate <;>
      simp [scbIndicesOf, hdeg]

/-- The emitted index count accounts for each face: three per
non-degenerate record. -/
theorem scbIndicesOf_length (fs : List ScbFace) :
    (scbIndicesOf fs).length +
        3 * (fs.filter (fun f => f.degenerate)).length = 3 * fs.length := by
  induction fs with
  | nil => simp [scbIndicesOf]
  | cons f fs ih =>
    by_cases hdeg : f.degenerate <;>
      simp [scbIndicesOf, hdeg, List.filter_cons] at ih ⊢ <;>
      omega

/-- One face line of the static-object text format (`read_sco`
lines 146–167): `3 <idx0> <idx1> <idx2> <material> <u1> <v1> <u2> <v2>
<u3> <v3>`. -/
structure ScoFaceLine where
  i0 : Nat
  i1 : Nat
  i2 : Nat
  material : String
  u1 : ℚ
  v1 : ℚ
  u2 : ℚ
  v2 : ℚ
  u3 : ℚ
  v3 : ℚ

/-- Degeneracy test of `read_sco` line 155. -/
def ScoFaceLine.degenerate (l : ScoFaceLine) : Prop :=
  l.i0 = l.i1 ∨ l.i1 = l.i2 ∨ l.i2 = l.i0

instance (l : ScoFaceLine) : Decidable l.degenerate := by
  unfold ScoFaceLine.degenerate
  infer_instance

/-- The face loop of `read_sco` (lines 138–167): every iteration advances
the line cursor by one (`index += 1`) whether or not the face is
degenerate, emitting indices only for non-degenerate faces; the loop stops
early when lines run out. Returns the emitted indices and the unconsumed
lines. -/
def readFacesSco : Nat → List ScoFaceLine → List Nat × List ScoFaceLine
  | 0, ls => ([], ls)
  | _ + 1, [] => ([], [])
  | n + 1, l :: ls =>
    let r := readFacesSco n ls
    ((if l.degenerate then [] else [l.i0, l.i1, l.i2]) ++ r.1, r.2)

/-- The index list the text reader emits. -/
def scoIndicesOf (ls : List ScoFaceLine) : List Nat :=
  ls.foldr
    (fun l acc => if l.degenerate then acc else l.i0 :: l.i1 :: l.i2 :: acc) []

/-- Reading the declared number of face lines consumes exactly those lines
and emits the indices of the non-degenerate ones. -/
theorem readFacesSco_consumes (ls : List ScoFaceLine)
    (lrest : List ScoFaceLine) :
    readFacesSco ls.length (ls ++ lrest) = (scoIndicesOf ls, lrest) := by
  induction ls with
  | nil => simp [readFacesSco, scoIndicesOf]
  | cons l ls ih =>
    rw [List.length_cons, List.cons_append, readFacesSco, ih]
    by_cases hdeg : l.degenerate <;> simp [scoIndicesOf, hdeg]

/-- Text-side emitted index count. -/
theorem scoIndicesOf_length (ls : List ScoFaceLine) :
    (scoIndicesOf ls).length +
        3 * (ls.filter (fun l => l.degenerate)).length = 3 * ls.length := by
  induction ls with
  | nil => simp [scoIndicesOf]
  | cons l ls ih =>
    by_cases hdeg : l.degenerate <;>
      simp [scoIndicesOf, hdeg, List.filter_cons] at ih ⊢ <;>
      omega

/-- C5: for a static-object file with N declared faces of which exactly
one is degenerate, the reader emits exactly 3(N-1) indices while fully
consuming every face record — the binary reader leaves the byte stream
positioned exactly after the N 100-byte records, and the text reader
leaves the line cursor exactly after the N face lines. -/
theorem degenerate_faces_dropped :
    ∀ (fs : List ScbFace) (rest : List Nat) (ls : List ScoFaceLine)
      (lrest : List ScoFaceLine),
      (∀ f ∈ fs, f.wf) →
      (fs.filter (fun f => f.degenerate)).length = 1 →
      (ls.filter (fun l => l.degenerate)).length = 1 →
      (readFacesScb fs.length (encodeScbFaces fs ++ rest) =
          some (scbIndicesOf fs, rest) ∧
        (scbIndicesOf fs).length = 3 * (fs.length - 1)) ∧
      (readFacesSco ls.length (ls ++ lrest) = (scoIndicesOf ls, lrest) ∧
        (scoIndicesOf ls).length = 3 * (ls.length - 1)) := by
  intro fs rest ls lrest hwf hone honetext
  have hb := scbIndicesOf_length fs
  have ht := scoIndicesOf_length ls
  have hfs1 : 1 ≤ fs.length := by
    have := List.length_filter_le (fun f => decide f.degenerate) fs
    omega
  have hls1 : 1 ≤ ls.length := by
    have := List.length_filter_le (fun l => decide l.degenerate) ls
    omega
  refine ⟨⟨readFacesScb_encode fs rest hwf, by omega⟩,
    ⟨readFacesSco_consumes ls lrest, by omega⟩⟩

/-- C5 witness: a two-face binary stream and a two-line text body, each
with one degenerate face, instantiating the theorem. -/
theorem degenerate_faces_dropped_witness :
    (readFacesScb
        ([⟨0, 1, 2, List.replicate 64 0, List.replicate 24 0⟩,
          ⟨3, 3, 4, List.replicate 64 0, List.replicate 24 0⟩] :
            List ScbFace).length
        (encodeScbFaces
          [⟨0, 1, 2, List.replicate 64 0, List.replicate 24 0⟩,
            ⟨3, 3, 4, List.replicate 64 0, List.replicate 24 0⟩] ++ [7]) =
        some (scbIndicesOf
          [⟨0, 1, 2, List.replicate 64 0, List.replicate 24 0⟩,
            ⟨3, 3, 4, List.replicate 64 0, List.replicate 24 0⟩], [7]) ∧
      (scbIndicesOf
        [⟨0, 1, 2, List.replicate 64 0, List.replicate 24 0⟩,
          ⟨3, 3, 4, List.replicate 64 0, List.replicate 24 0⟩]).length =
        3 * (2 - 1)) ∧
    (readFacesSco
        ([⟨0, 1, 2, "mat", 0, 0, 0, 0, 0, 0⟩,
          ⟨5, 6, 5, "mat", 0, 0, 0, 0, 0, 0⟩] : List ScoFaceLine).length
        ([⟨0, 1, 2, "mat", 0, 0, 0, 0, 0, 0⟩,
          ⟨5, 6, 5, "mat", 0, 0, 0, 0, 0, 0⟩] ++ []) =
        (scoIndicesOf
          [⟨0, 1, 2, "mat", 0, 0, 0, 0, 0, 0⟩,
            ⟨5, 6, 5, "mat", 0, 0, 0, 0, 0, 0⟩], []) ∧
      (scoIndicesOf
        [⟨0, 1, 2, "mat", 0, 0, 0, 0, 0, 0⟩,
          ⟨5, 6, 5, "mat", 0, 0, 0, 0, 0, 0⟩]).length = 3 * (2 - 1)) := by
  have h := degenerate_faces_dropped
    [⟨0, 1, 2, List.replicate 64 0, List.replicate 24 0⟩,
      ⟨3, 3, 4, List.replicate 64 0, List.replicate 24 0⟩] [7]
    [⟨0, 1, 2, "mat", 0, 0, 0, 0, 0, 0⟩,
      ⟨5, 6, 5, "mat", 0, 0, 0, 0, 0, 0⟩] []
    (by
      intro f hf
      rcases List.mem_cons.mp hf with rfl | hf'
      · exact ⟨by norm_num, by norm_num, by norm_num, by simp, by simp⟩
      · rcases List.mem_cons.mp hf' with rfl | hf''
        · exact ⟨by norm_num, by norm_num, by norm_num, by simp, by simp⟩
        · cases hf'')
    (by decide) (by decide)
  exact ⟨⟨h.1.1, h.1.2⟩, ⟨h.2.1, h.2.2⟩⟩

/-! ### Sparse animation-track evaluation (`src/io/anm_import_direct.py`) -/

/-- One sparse pose sample: `ANMPose` carries optional translate, rotate
and scale components, all absent in a default-constructed pose. -/
structure ANMPose where
  translate : Option Vec3
  rotate : Option Quat
  scale : Option Vec3
deriving DecidableEq, Repr

/-- The `ANMPose()` default built at `apply_anm_to_armature_direct`
line 146 for frames with no data. -/
def defaultPose : ANMPose := { translate := none, rotate := none, scale := none }

/-- Dictionary access `track.poses[t]` over the track's key–pose pairs. -/
def lookupPose : List (Nat × ANMPose) → Nat → Option ANMPose
  | [], _ => none
  | (t, p) :: rest, f => if t = f then some p else lookupPose rest f

/-- `sorted_times = sorted(track.poses.keys())` (line 117). -/
def sortedTimes (poses : List (Nat × ANMPose)) : List Nat :=
  (poses.map Prod.fst).insertionSort (· ≤ ·)

/-- The neighbour scan of lines 128–136: walk the sorted times keeping the
last time at or before the frame, and stop at the first time at or after
it. -/
def scanTimes : List Nat → Nat → Option Nat → Option Nat × Option Nat
  | [], _, left => (left, none)
  | t :: rest, frame, left =>
    let left2 := if t ≤ frame then some t else left
    if frame ≤ t then (left2, some t) else scanTimes rest frame left2

/-- Frame evaluation of lines 120–147: use the exact sample when present;
otherwise the sample at the left neighbour time when one exists, else at
the right neighbour time, else the default pose. -/
def evalTrackPose (poses : List (Nat × ANMPose)) (frame : Nat) : ANMPose :=
  match lookupPose poses frame with
  | some p => p
  | none =>
    let s := scanTimes (sortedTimes poses) frame none
    match s.1 with
    | some t =>
      match lookupPose poses t with
      | some p => p
      | none => defaultPose
    | none =>
      match s.2 with
      | some t =>
        match lookupPose poses t with
        | some p => p
        | none => defaultPose
      | none => defaultPose

/-- Extraction of the pose transform (lines 151–164): absent components
default to zero translation, identity rotation, unit scale. -/
def poseTRS (p : ANMPose) : Vec3 × Quat × Vec3 :=
  (p.translate.getD { x := 0, y := 0, z := 0 },
    p.rotate.getD { w := 1, x := 0, y := 0, z := 0 },
    p.scale.getD { x := 1, y := 1, z := 1 })

/-- A successful dictionary lookup means the pair is in the track. -/
theorem lookupPose_mem :
    ∀ (poses : List (Nat × ANMPose)) (f : Nat) (p : ANMPose),
      lookupPose poses f = some p → (f, p) ∈ poses := by
  intro poses
  induction poses with
  | nil => intro f p h; cases h
  | cons e rest ih =>
    intro f p h
    rw [show e = (e.1, e.2) from rfl, lookupPose] at h
    split_ifs at h with he
    · rw [Option.some.injEq] at h
      subst h
      subst he
      exact List.mem_cons_self _ _
    · exact List.mem_cons_of_mem _ (ih f p h)

/-- A failed dictionary lookup means the key is absent. -/
theorem lookupPose_eq_none :
    ∀ (poses : List (Nat × ANMPose)) (f : Nat),
      lookupPose poses f = none ↔ f ∉ poses.map Prod.fst := by
  intro poses
  induction poses with
  | nil => intro f; simp [lookupPose]
  | cons e rest ih =>
    intro f
    rw [show e = (e.1, e.2) from rfl, lookupPose]
    split_ifs with he
    · simp [he.symm]
    · simp only [List.map_cons, List.mem_cons, ih]
      constructor
      · intro h hc
        rcases hc with hc | hc
        · exact he hc.symm
        · exact h hc
      · intro h
        exact fun hc => h (Or.inr hc)

/-- With duplicate-free keys, lookup finds each stored pair. -/
theorem lookupPose_of_mem (poses : List (Nat × ANMPose))
    (hnd : (poses.map Prod.fst).Nodup) :
    ∀ (t : Nat) (p : ANMPose), (t, p) ∈ poses → lookupPose poses t = some p := by
  induction poses with
  | nil => intro t p h; cases h
  | cons e rest ih =>
    intro t p h
    rw [List.map_cons, List.nodup_cons] at hnd
    rw [show e = (e.1, e.2) from rfl, lookupPose]
    split_ifs with he
    · rcases List.mem_cons.mp h with hh | hh
      · rw [← hh]
      · exact absurd (he ▸ List.mem_map_of_mem Prod.fst hh) hnd.1
    · rcases List.mem_cons.mp h with hh | hh
      · exact absurd (congrArg Prod.fst hh).symm he
      · exact ih hnd.2 t p hh

/-- When no listed time is at or before the frame, the scan leaves the
left neighbour untouched. -/
theorem scanTimes_left_of_none :
    ∀ (ts : List Nat) (frame : Nat) (acc : Option Nat),
      (∀ u ∈ ts, ¬ u ≤ frame) → (scanTimes ts frame acc).1 = acc := by
  intro ts
  induction ts with
  | nil => intro frame acc _; rfl
  | cons u rest ih =>
    intro frame acc hall
    have hu : ¬ u ≤ frame := hall u (List.mem_cons_self u rest)
    rw [scanTimes]
    rw [if_neg hu, if_pos (le_of_not_le hu)]

/-- On a strictly increasing time list the scan's left neighbour is the
greatest time at or before the frame. -/
theorem scanTimes_left_max :
    ∀ (ts : List Nat) (frame t : Nat) (acc : Option Nat),
      List.Pairwise (· < ·) ts → t ∈ ts → t ≤ frame →
      (∀ u ∈ ts, u ≤ frame → u ≤ t) →
      (scanTimes ts frame acc).1 = some t := by
  intro ts
  induction ts with
  | nil => intro frame t acc _ h; cases h
  | cons u rest ih =>
    intro frame t acc hpw hmem hle hmax
    rw [List.pairwise_cons] at hpw
    rw [scanTimes]
    by_cases hur : frame ≤ u
    · rw [if_pos hur]
      by_cases hul : u ≤ frame
      · have huf : u = frame := le_antisymm hul hur
        have ht : t = u := by
          rcases List.mem_cons.mp hmem with rfl | hmem'
          · rfl
          · exact absurd hle (by have := hpw.1 t hmem'; omega)
        rw [if_pos hul, ht]
      · exfalso
        rcases List.mem_cons.mp hmem with rfl | hmem'
        · exact hul hle
        · have := hpw.1 t hmem'
          omega
    · have hul : u ≤ frame := le_of_not_le hur
      rw [if_neg hur, if_pos hul]
      rcases List.mem_cons.mp hmem with rfl | hmem'
      · -- the head is the maximum: nothing in the tail is at or before
        apply scanTimes_left_of_none
        intro v hv hvle
        have h1 := hpw.1 v hv
        have h2 := hmax v (List.mem_cons_of_mem t hv) hvle
        omega
      · exact ih frame t (some u) hpw.2 hmem' hle
          (fun v hv hvle => hmax v (List.mem_cons_of_mem u hv) hvle)

/-- C7: with duplicate-free sample keys, evaluating a frame returns the
sample at the greatest key at or before it when one exists; otherwise the
sample at the least key (which is then at or after the frame); and the
default pose — zero translation, identity rotation, unit scale — when the
track has no samples at all. -/
theorem evalTrackPose_nearest (poses : List (Nat × ANMPose)) (frame : Nat)
    (hnd : (poses.map Prod.fst).Nodup) :
    (∀ (t : Nat) (p : ANMPose), (t, p) ∈ poses → t ≤ frame →
      (∀ (t2 : Nat) (p2 : ANMPose), (t2, p2) ∈ poses → t2 ≤ frame → t2 ≤ t) →
      evalTrackPose poses frame = p) ∧
    ((∀ (t2 : Nat) (p2 : ANMPose), (t2, p2) ∈ poses → frame < t2) →
      ∀ (t : Nat) (p : ANMPose), (t, p) ∈ poses →
      (∀ (t2 : Nat) (p2 : ANMPose), (t2, p2) ∈ poses → t ≤ t2) →
      evalTrackPose poses frame = p) ∧
    (poses = [] → evalTrackPose poses frame = defaultPose) ∧
    poseTRS defaultPose =
      ({ x := 0, y := 0, z := 0 }, { w := 1, x := 0, y := 0, z := 0 },
        { x := 1, y := 1, z := 1 }) := by
  have hinj := List.inj_on_of_nodup_map hnd
  have hperm := List.perm_insertionSort (· ≤ ·) (poses.map Prod.fst)
  have hsortedle : List.Sorted (· ≤ ·) (sortedTimes poses) :=
    List.sorted_insertionSort (· ≤ ·) (poses.map Prod.fst)
  have hndts : (sortedTimes poses).Nodup := hperm.nodup_iff.mpr hnd
  have hst : List.Pairwise (· < ·) (sortedTimes poses) :=
    hsortedle.lt_of_le hndts
  have hmem_ts : ∀ u : Nat, u ∈ sortedTimes poses ↔ u ∈ poses.map Prod.fst :=
    fun u => hperm.mem_iff
  refine ⟨?_, ?_, ?_, rfl⟩
  · intro t p htp hle hmax
    cases hex : lookupPose poses frame with
    | some q =>
      have hqmem : (frame, q) ∈ poses := lookupPose_mem poses frame q hex
      have htf : t = frame :=
        le_antisymm hle (hmax frame q hqmem (le_refl frame))
      have hpq : (t, p) = (frame, q) :=
        hinj htp hqmem (by rw [htf])
      rw [evalTrackPose, hex]
      exact (congrArg Prod.snd hpq).symm
    | none =>
      have hts : t ∈ sortedTimes poses :=
        (hmem_ts t).mpr (List.mem_map_of_mem Prod.fst htp)
      have hmax_ts : ∀ u ∈ sortedTimes poses, u ≤ frame → u ≤ t := by
        intro u hu hule
        obtain ⟨e, he, rfl⟩ := List.mem_map.mp ((hmem_ts u).mp hu)
        exact hmax e.1 e.2 (by simpa using he) hule
      have hscan := scanTimes_left_max (sortedTimes poses) frame t none
        hst hts hle hmax_ts
      rw [evalTrackPose, hex]
      simp only [hscan, lookupPose_of_mem poses hnd t p htp]
  · intro hall t p htp hmin
    have hex : lookupPose poses frame = none := by
      rw [lookupPose_eq_none]
      intro hc
      obtain ⟨e, he, hef⟩ := List.mem_map.mp hc
      have := hall e.1 e.2 (by simpa using he)
      omega
    have hts : t ∈ sortedTimes poses :=
      (hmem_ts t).mpr (List.mem_map_of_mem Prod.fst htp)
    cases hts_eq : sortedTimes poses with
    | nil => rw [hts_eq] at hts; cases hts
    | cons u rest =>
      have hu_gt : frame < u := by
        obtain ⟨e, he, hef⟩ := List.mem_map.mp
          ((hmem_ts u).mp (hts_eq ▸ List.mem_cons_self u rest))
        have := hall e.1 e.2 (by simpa using he)
        omega
      have htu : t = u := by
        rw [hts_eq] at hts
        rcases List.mem_cons.mp hts with rfl | hmem'
        · rfl
        · have hpwts := hst
          rw [hts_eq, List.pairwise_cons] at hpwts
          have h1 := hpwts.1 t hmem'
          obtain ⟨e, he, hef⟩ := List.mem_map.mp
            ((hmem_ts u).mp (hts_eq ▸ List.mem_cons_self u rest))
          have h2 := hmin e.1 e.2 (by simpa using he)
          omega
      have hscan : scanTimes (sortedTimes poses) frame none = (none, some u) := by
        rw [hts_eq, scanTimes,
          if_neg (by omega : ¬ u ≤ frame), if_pos (le_of_lt hu_gt)]
      rw [evalTrackPose, hex]
      simp only [hscan]
      rw [← htu, lookupPose_of_mem poses hnd t p htp]
  · intro h
    subst h
    rfl

/-- Concrete pose samples for the C7 witness. -/
def witnessPoseA : ANMPose :=
  { translate := some { x := 1, y := 2, z := 3 }, rotate := none, scale := none }

/-- Second concrete pose sample for the C7 witness. -/
def witnessPoseB : ANMPose :=
  { translate := none, rotate := some { w := 0, x := 1, y := 0, z := 0 },
    scale := none }

/-- C7 witness: on a track with samples at frames 2 and 5, frame 3 (no
exact sample) evaluates to the sample at frame 2, the nearest at or
before. -/
theorem evalTrackPose_nearest_witness :
    evalTrackPose [(2, witnessPoseA), (5, witnessPoseB)] 3 = witnessPoseA := by
  have h := (evalTrackPose_nearest [(2, witnessPoseA), (5, witnessPoseB)] 3
    (by decide)).1
  apply h 2 witnessPoseA (List.mem_cons_self _ _) (by omega)
  intro t2 p2 hmem hle
  rcases List.mem_cons.mp hmem with heq | hmem'
  · have := congrArg Prod.fst heq
    simp at this
    omega
  · rcases List.mem_cons.mp hmem' with heq | hmem''
    · have := congrArg Prod.fst heq
      simp at this
      omega
    · cases hmem''

/-- The state of the mesh object touched by
`LOLLeagueLimitInfluences_V4.execute`: vertex positions, the triangle
index list, the object's vertex-group collection (by name), and each
vertex's group memberships. The operator's only mutations are the
`vertex_groups[...].remove`/`.add` calls on the vertex being processed, so
the execute loop acts on the membership lists alone, vertex by vertex. -/
structure MeshObjectState where
  positions : List Vec3
  indices : List Nat
  groupNames : List String
  memberships : List (List (Nat × ℚ))

/-- Whole-mesh effect of `LOLLeagueLimitInfluences_V4.execute`
(lines 36–64): the per-vertex update applied to every vertex's
memberships; nothing else is written. -/
def limitInfluencesExecute (m : MeshObjectState) : MeshObjectState :=
  { m with memberships := m.memberships.map perVertexUpdate }

/-- C10: the repair operation leaves vertex positions, indices and the set
of vertex groups untouched, and a vertex whose significant-influence count
is at most 4 — or whose top-4 weight sum does not exceed the threshold —
keeps exactly its original memberships and weights. -/
theorem limitInfluences_frame :
    (∀ m : MeshObjectState,
      (limitInfluencesExecute m).positions = m.positions ∧
      (limitInfluencesExecute m).indices = m.indices ∧
      (limitInfluencesExecute m).groupNames = m.groupNames ∧
      (limitInfluencesExecute m).memberships.length = m.memberships.length) ∧
    (∀ gs : List (Nat × ℚ),
      ¬ (4 < (significantInfluences gs).length ∧
          weightThreshold < top4SumOf gs) →
      perVertexUpdate gs = gs) ∧
    (∀ m : MeshObjectState, ∀ gs ∈ m.memberships,
      ¬ (4 < (significantInfluences gs).length ∧
          weightThreshold < top4SumOf gs) →
      gs ∈ (limitInfluencesExecute m).memberships) := by
  have hfix : ∀ gs : List (Nat × ℚ),
      ¬ (4 < (significantInfluences gs).length ∧
          weightThreshold < top4SumOf gs) →
      perVertexUpdate gs = gs := by
    intro gs h
    rw [perVertexUpdate]
    split_ifs with h1 h2
    · exact absurd ⟨h1, h2⟩ h
    · rfl
    · rfl
  refine ⟨?_, hfix, ?_⟩
  · intro m
    exact ⟨rfl, rfl, rfl, by simp [limitInfluencesExecute]⟩
  · intro m gs hmem h
    have hgs : perVertexUpdate gs = gs := hfix gs h
    have hmem' := List.mem_map_of_mem perVertexUpdate hmem
    rw [hgs] at hmem'
    exact hmem'

/-- C10 witness: a one-influence vertex in a small mesh is untouched. -/
theorem limitInfluences_frame_witness :
    perVertexUpdate [(0, 1)] = [(0, 1)] :=
  limitInfluences_frame.2.1 [(0, 1)]
    (by
      intro h
      have := h.1
      rw [significantInfluences] at this
      have hle : ((([(0, (1 : ℚ))]).filter
          (fun g => weightThreshold < g.2)).length) ≤ 1 :=
        le_trans (List.length_filter_le _ _) (by norm_num)
      omega)
